import Mathlib

/-!
Verification of the parcon parser-combinator engine
(`src/parcon/parcon/__init__.py`) against its specification.

The embedding models the Python source directly:

* Python strings become `List Char`; positions are `Nat`.
* A `Result` is a success (end position, value, pending expectations) or a
  failure (expectations only), exactly as in the `Result` class.
* Dynamically-typed Python values produced by parsers become the `Value`
  inductive.  The `Value.tuple` constructor models exactly the built-in
  `tuple` type; `Value.list` models Python lists; `Value.pair` models the
  `Pair` named tuple produced by `Tag` (a proper subclass of `tuple`,
  hence *not* matched by `type(x) == tuple` checks in `Then.parse`).
* Each combinator class's `parse` method becomes one arm of the `parse`
  interpreter.  Python's unbounded loops (`Parser.consume`,
  `ZeroOrMore`/`Repeat` loops, the `InfixExpr` reduction loop) are given an
  explicit fuel argument; `none` means the fuel ran out, `some (.error m)`
  models a raised Python exception, and `some (.ok r)` is a returned
  `Result`.
* The `Forward` class's mutable `self.parser` field is modelled by the
  `Parser.forward (parser : Option Parser)` constructor: an unassigned
  forward is `forward none`; after `set`/`<<` (possibly called repeatedly)
  the node holds `forward (some p)` for the most recently assigned `p`.
-/

namespace Parcon

/-- The module-level constant `whitespace = " \t\r\n"`. -/
def wsChars : List Char := [' ', '\t', '\r', '\n']

/-- The `Expectation` class hierarchy (`EUnsatisfiable`, `EStringLiteral`,
`ERegex`, `EAnyCharIn`, `EAnyCharNotIn`, `EAnyChar`, `ECustomExpectation`). -/
inductive Expectation where
  | eUnsatisfiable
  | eStringLiteral (text : List Char)
  | eRegex (pattern : List Char)
  | eAnyCharIn (chars : List Char)
  | eAnyCharNotIn (chars : List Char)
  | eAnyChar
  | eCustomExpectation (message : List Char)
deriving DecidableEq, Repr

/-- Each Expectation subclass's `format` method. -/
def Expectation.format : Expectation → String
  | .eUnsatisfiable => "EOF"
  | .eStringLiteral t => "\"" ++ String.mk t ++ "\""
  | .eRegex p => "regex \"" ++ String.mk p ++ "\""
  | .eAnyCharIn cs => "any char in \"" ++ String.mk cs ++ "\""
  | .eAnyCharNotIn cs => "any char not in \"" ++ String.mk cs ++ "\""
  | .eAnyChar => "any char"
  | .eCustomExpectation m => String.mk m

/-- A numeric stand-in for `type(e)`: distinguishes the Expectation
subclasses, used in `filter_expectations`' deduplication key. -/
def Expectation.ekind : Expectation → Nat
  | .eUnsatisfiable => 0
  | .eStringLiteral _ => 1
  | .eRegex _ => 2
  | .eAnyCharIn _ => 3
  | .eAnyCharNotIn _ => 4
  | .eAnyChar => 5
  | .eCustomExpectation _ => 6

/-- `isinstance(e, EUnsatisfiable)`. -/
def Expectation.isUnsat : Expectation → Bool
  | .eUnsatisfiable => true
  | _ => false

/-- Dynamically-typed values produced by parsers.  `tuple` is exactly the
built-in Python `tuple` type; `pair` is the `Pair` named tuple created by
`Tag` (a proper subclass of `tuple`); `list` is a Python list. -/
inductive Value where
  | none
  | char (c : Char)
  | str (s : List Char)
  | num (n : Int)
  | tuple (vs : List Value)
  | list (vs : List Value)
  | pair (key : List Char) (value : Value)
deriving Repr

/-- `type(v) == tuple` (exact type check: `pair` and `list` do not count). -/
def Value.isTuple : Value → Bool
  | .tuple _ => true
  | _ => false

/-- Whether the value is a Python list (the collected-sequence type
produced by `Repeat`). -/
def Value.isList : Value → Bool
  | .list _ => true
  | _ => false

/-- Length of a Python-list value (0 for non-lists). -/
def Value.listLen : Value → Nat
  | .list vs => vs.length
  | _ => 0

/-- The `Result` class: success carries the end position, the produced
value and the pending expectations; failure carries expectations only. -/
inductive Result where
  | success (endPos : Nat) (value : Value) (expected : List (Nat × Expectation))
  | failure (expected : List (Nat × Expectation))
deriving Repr

/-- The `expected` field of a `Result`. -/
def Result.expected : Result → List (Nat × Expectation)
  | .success _ _ ex => ex
  | .failure ex => ex

/-- The `end` field of a `Result` (undefined — here 0 — for failures). -/
def Result.endPos : Result → Nat
  | .success e _ _ => e
  | .failure _ => 0

/-- Whether a result is truthy (`Result.__nonzero__`). -/
def Result.isSuccess : Result → Bool
  | .success .. => true
  | .failure _ => false

/-- Outcome of running a piece of Python code: `none` = the fuel ran out,
`some (.error m)` = a raised exception, `some (.ok a)` = a returned value. -/
abbrev POut (α : Type) := Option (Except String α)

/-- Sequencing of Python steps: propagate fuel exhaustion and raised
exceptions. -/
def bindE {α β : Type} (x : POut α) (f : α → POut β) : POut β :=
  match x with
  | Option.none => Option.none
  | some (.error m) => some (.error m)
  | some (.ok a) => f a

/-- The deep embedding of the combinator classes used by the claims. -/
inductive Parser where
  | invalid
  | literal (text : List Char)
  | significantLiteral (text : List Char)
  | charIn (chars : List Char)
  | whitespaceP
  | then_ (first second : Parser)
  | first (parsers : List Parser)
  | longest (parsers : List Parser)
  | repeatP (parser : Parser) (min max : Option Nat)
  | exact (parser : Parser) (spaceParser : Parser)
  | forward (parser : Option Parser)
  | infixExpr (component : Parser) (operators : List (Parser × (Value → Value → Value)))
  | returnP (value : Value)
  | tag (key : List Char) (parser : Parser)

/-- `Exact`'s default `space_parser=Invalid()` argument. -/
def Exact (p : Parser) : Parser := .exact p .invalid

/-- The value-merge rule in `Then.parse` (lines 1082-1094 of the source):
`a is None` → `b`; `b is None` → `a`; both exactly `tuple` → concatenate;
only `a` a tuple → append; only `b` a tuple → prepend; otherwise the
2-tuple `(a, b)`.  `Value.pair` and `Value.list` fall into the opaque
"otherwise" cases because `type(x) == tuple` is false for them. -/
def thenMerge (a b : Value) : Value :=
  match a, b with
  | .none, b => b
  | a, .none => a
  | .tuple xs, .tuple ys => .tuple (xs ++ ys)
  | .tuple xs, b => .tuple (xs ++ [b])
  | a, .tuple ys => .tuple (a :: ys)
  | a, b => .tuple [a, b]

/-- Python slice `text[i:j]` on a string. -/
def slice (text : List Char) (i j : Nat) : List Char :=
  (text.drop i).take (j - i)

/-- Scanning core of the regex-shortcut whitespace consumer; the first
argument is `e - pos`, so the recursion is structural. -/
def wsRegexEndAux : Nat → List Char → Nat → Nat → Nat
  | 0, _, pos, _ => pos
  | n + 1, text, pos, e =>
    if pos < e then
      match text[pos]? with
      | some c => if c ∈ wsChars then wsRegexEndAux n text (pos + 1) e else pos
      | Option.none => pos
    else pos

/-- The regex-shortcut whitespace consumer installed by `Whitespace.__init__`:
`re.compile(r"[ \t\r\n]*").match(t, p, e).end()`, i.e. the first index in
`[pos, e)` holding a character outside `" \t\r\n"`, or `e` if none. -/
def wsRegexEnd (text : List Char) (pos e : Nat) : Nat :=
  wsRegexEndAux (e - pos) text pos e

/-- The generic `Parser.consume` loop (lines 621-626): repeatedly apply the
parser with `Invalid()` as its whitespace parser until it fails, returning
the position where it first failed.  `parseF` is the parse interpreter one
fuel level down; the `Nat` argument is the loop's own fuel. -/
def consumeAux (parseF : Parser → List Char → Nat → Nat → Parser → POut Result) :
    Nat → Parser → List Char → Nat → Nat → POut Nat
  | 0, _, _, _, _ => Option.none
  | f + 1, p, text, pos, e =>
    bindE (parseF p text pos e .invalid) fun
      | .failure _ => some (.ok pos)
      | .success e' _ _ => consumeAux parseF f p text e' e

/-- `space.consume(text, position, end)` as invoked by leaf matchers:
`Whitespace` instances carry the regex shortcut installed in their
`__init__`; every other parser uses the generic `Parser.consume` loop. -/
def consumeD (parseF : Parser → List Char → Nat → Nat → Parser → POut Result)
    (loopFuel : Nat) (space : Parser) (text : List Char) (pos e : Nat) : POut Nat :=
  match space with
  | .whitespaceP => some (.ok (wsRegexEnd text pos e))
  | sp => consumeAux parseF loopFuel sp text pos e

/-- The character test shared by `CharIn.parse` and the inherited
`Whitespace.parse`, after whitespace consumption: one character is taken if
`position < end` and it lies in `chars`; succeeding past the real end of
the text raises an `IndexError`. -/
def charInAfterWs (cs : List Char) (text : List Char) (pos e : Nat) : POut Result :=
  if pos < e then
    match text[pos]? with
    | some c =>
      if c ∈ cs then
        some (.ok (.success (pos + 1) (.char c) [(pos + 1, .eUnsatisfiable)]))
      else some (.ok (.failure [(pos, .eAnyCharIn cs)]))
    | Option.none => some (.error "string index out of range")
  else some (.ok (.failure [(pos, .eAnyCharIn cs)]))

/-- The `First.parse` loop: try each parser in order, returning the first
success with the accumulated failure expectations appended; fail with the
accumulated expectations if every parser fails. -/
def firstAux (parseF : Parser → List Char → Nat → Nat → Parser → POut Result) :
    List Parser → List Char → Nat → Nat → Parser → List (Nat × Expectation) → POut Result
  | [], _, _, _, _, acc => some (.ok (.failure acc))
  | p :: ps, text, pos, e, space, acc =>
    bindE (parseF p text pos e space) fun
      | .success e' v ex => some (.ok (.success e' v (ex ++ acc)))
      | .failure ex => firstAux parseF ps text pos e space (acc ++ ex)

/-- Python's `max(successful, key=lambda result: result.end)`: the first
result among ties with the greatest end position. -/
def maxByEnd (s : Result) (rest : List Result) : Result :=
  rest.foldl (fun best r => if r.endPos > best.endPos then r else best) s

/-- The `Longest.parse` loop: try all parsers, collecting successes and
failure expectations; fail with the accumulated expectations if nothing
succeeded, otherwise return the success with the greatest end position. -/
def longestAux (parseF : Parser → List Char → Nat → Nat → Parser → POut Result) :
    List Parser → List Char → Nat → Nat → Parser → List Result →
    List (Nat × Expectation) → POut Result
  | [], _, _, _, _, succ, errs =>
    match succ with
    | [] => some (.ok (.failure errs))
    | s :: rest => some (.ok (maxByEnd s rest))
  | p :: ps, text, pos, e, space, succ, errs =>
    bindE (parseF p text pos e space) fun
      | .success e' v ex => longestAux parseF ps text pos e space (succ ++ [.success e' v ex]) errs
      | .failure ex => longestAux parseF ps text pos e space succ (errs ++ ex)

/-- One step down on Python's loop counter `xrange(max)`;
`itertools.count(0)` (`max is None`) never runs out. -/
def decrOpt : Option Nat → Option Nat
  | Option.none => Option.none
  | some n => some (n - 1)

/-- `self.min and len(result) < self.min` — the failure condition after the
`Repeat.parse` loop (`None` and `0` are falsy). -/
def repeatMinFail : Option Nat → Nat → Bool
  | Option.none, _ => false
  | some m, len => m != 0 && len < m

/-- The `Repeat.parse` loop (lines 1376-1383): apply the parser until it
fails or `max` applications have been made, collecting values and
remembering the last result's expectations.  Returns the final position,
the collected values, and the last parse result's expectations. -/
def repeatLoop (parseF : Parser → List Char → Nat → Nat → Parser → POut Result) :
    Nat → Parser → List Char → Nat → Nat → Parser → Option Nat → List Value →
    List (Nat × Expectation) → POut (Nat × List Value × List (Nat × Expectation))
  | 0, _, _, _, _, _, _, _, _ => Option.none
  | f + 1, p, text, pos, e, space, remaining, acc, lastEx =>
    if remaining = some 0 then some (.ok (pos, acc, lastEx))
    else
      bindE (parseF p text pos e space) fun
        | .failure ex => some (.ok (pos, acc, ex))
        | .success e' v ex =>
          repeatLoop parseF f p text e' e space (decrOpt remaining) (acc ++ [v]) ex

/-- The inner operator loop of `InfixExpr.parse`: try each
`(operatorParser, reduceFn)` pair in order; on the first success return its
end position, reduce function and success expectations (`Sum.inr`); if all
fail return the concatenated failure expectations (`Sum.inl`). -/
def tryOps (parseF : Parser → List Char → Nat → Nat → Parser → POut Result) :
    List (Parser × (Value → Value → Value)) → List Char → Nat → Nat → Parser →
    POut (List (Nat × Expectation) ⊕ (Nat × (Value → Value → Value) × List (Nat × Expectation)))
  | [], _, _, _, _ => some (.ok (.inl []))
  | (op, fn) :: rest, text, pos, e, space =>
    bindE (parseF op text pos e space) fun
      | .success e' _ ex => some (.ok (.inr (e', fn, ex)))
      | .failure ex =>
        bindE (tryOps parseF rest text pos e space) fun
          | .inl acc => some (.ok (.inl (ex ++ acc)))
          | .inr r => some (.ok (.inr r))

/-- The outer `while True` loop of `InfixExpr.parse`: `v` is the running
value, `pos` the current position, `compEx` the expectations of the last
component result.  If no operator matches, succeed with `v` and the
accumulated expectations; if an operator matches but the trailing component
fails, succeed with `v` and the failed component's plus the operator's
expectations; otherwise reduce and continue. -/
def infixLoop (parseF : Parser → List Char → Nat → Nat → Parser → POut Result) :
    Nat → Parser → List (Parser × (Value → Value → Value)) → List Char → Value →
    Nat → Nat → Parser → List (Nat × Expectation) → POut Result
  | 0, _, _, _, _, _, _, _, _ => Option.none
  | f + 1, comp, ops, text, v, pos, e, space, compEx =>
    bindE (tryOps parseF ops text pos e space) fun
      | .inl opsEx => some (.ok (.success pos v (compEx ++ opsEx)))
      | .inr (opEnd, opFn, opEx) =>
        bindE (parseF comp text opEnd e space) fun
          | .failure exC => some (.ok (.success pos v (exC ++ opEx)))
          | .success e2 v2 ex2 =>
            infixLoop parseF f comp ops text (opFn v v2) e2 e space ex2

/-- The message of the exception raised by `Forward.parse` when no parser
has been assigned. -/
def forwardUnsetMessage : String :=
  "Forward.parse was called before the specified Forward instance's set function or << operator was used to specify a parser."

/-- The combinator contract `parse(text, position, end, space) -> Result`,
interpreted over the deep embedding with explicit fuel.  Every recursive
call runs one fuel level down; loop helpers additionally receive the fuel
as their iteration budget. -/
def parse : Nat → Parser → List Char → Nat → Nat → Parser → POut Result
  | 0, _, _, _, _, _ => Option.none
  | fuel + 1, p, text, pos, e, space =>
    match p with
    | .invalid => some (.ok (.failure [(pos, .eUnsatisfiable)]))
    | .literal t =>
      bindE (consumeD (parse fuel) fuel space text pos e) fun pos' =>
        if pos' + t.length ≤ e ∧ slice text pos' (pos' + t.length) = t then
          some (.ok (.success (pos' + t.length) .none [(pos' + t.length, .eUnsatisfiable)]))
        else some (.ok (.failure [(pos', .eStringLiteral t)]))
    | .significantLiteral t =>
      bindE (consumeD (parse fuel) fuel space text pos e) fun pos' =>
        if pos' + t.length ≤ e ∧ slice text pos' (pos' + t.length) = t then
          some (.ok (.success (pos' + t.length) (.str t) [(pos' + t.length, .eUnsatisfiable)]))
        else some (.ok (.failure [(pos', .eStringLiteral t)]))
    | .charIn cs =>
      bindE (consumeD (parse fuel) fuel space text pos e) fun pos' =>
        charInAfterWs cs text pos' e
    | .whitespaceP =>
      bindE (consumeD (parse fuel) fuel space text pos e) fun pos' =>
        charInAfterWs wsChars text pos' e
    | .then_ p1 p2 =>
      bindE (parse fuel p1 text pos e space) fun
        | .failure ex1 => some (.ok (.failure ex1))
        | .success e1 a ex1 =>
          bindE (parse fuel p2 text e1 e space) fun
            | .failure ex2 => some (.ok (.failure (ex1 ++ ex2)))
            | .success e2 b ex2 =>
              some (.ok (.success e2 (thenMerge a b) (ex1 ++ ex2)))
    | .first ps => firstAux (parse fuel) ps text pos e space []
    | .longest ps => longestAux (parse fuel) ps text pos e space [] []
    | .repeatP q mn mx =>
      if mx = some 0 then
        some (.ok (.success pos (.list []) [(pos, .eUnsatisfiable)]))
      else if mn = some 1 ∧ mx = some 1 then parse fuel q text pos e space
      else
        bindE (repeatLoop (parse fuel) fuel q text pos e space mx [] []) fun out =>
          if repeatMinFail mn out.2.1.length then some (.ok (.failure out.2.2))
          else some (.ok (.success out.1 (.list out.2.1) out.2.2))
    | .exact q sp =>
      bindE (consumeD (parse fuel) fuel space text pos e) fun pos' =>
        parse fuel q text pos' e sp
    | .forward Option.none => some (.error forwardUnsetMessage)
    | .forward (some q) => parse fuel q text pos e space
    | .infixExpr comp ops =>
      bindE (parse fuel comp text pos e space) fun
        | .failure ex => some (.ok (.failure ex))
        | .success e1 v ex1 => infixLoop (parse fuel) fuel comp ops text v e1 e space ex1
    | .returnP v => some (.ok (.success pos v [(pos, .eUnsatisfiable)]))
    | .tag k q =>
      bindE (parse fuel q text pos e space) fun
        | .failure ex => some (.ok (.failure ex))
        | .success e' v ex => some (.ok (.success e' (.pair k v) ex))

/-- Python's `max(expected, key=lambda (position, _): position)` on a
non-empty expectation list: iterate keeping the current element unless a
strictly greater position appears, so the *first* entry among ties with
the maximal position is returned.  (The empty-list default is never
reached by `filter_expectations`.) -/
def firstMaxByPos (l : List (Nat × Expectation)) : Nat × Expectation :=
  match l with
  | [] => (0, .eUnsatisfiable)
  | x :: xs => xs.foldl (fun best y => if y.1 > best.1 then y else best) x

/-- The deduplication pass at the end of `filter_expectations`: keep each
expectation whose `(type(e), e.format())` key has not been seen yet,
preserving order. -/
def dedupExpectations : List Expectation → List (Nat × String) → List Expectation
  | [], _ => []
  | x :: xs, used =>
    if (x.ekind, x.format) ∈ used then dedupExpectations xs used
    else x :: dedupExpectations xs ((x.ekind, x.format) :: used)

/-- `filter_expectations` (lines 386-434): `(0, [])` on an empty list; if
every entry is an `EUnsatisfiable`, a single `EUnsatisfiable` at the
maximum position; otherwise drop the `EUnsatisfiable` entries, take the
maximum position among the survivors and keep the survivors at that
position; finally deduplicate by `(type, format)`. -/
def filterExpectations (expected : List (Nat × Expectation)) : Nat × List Expectation :=
  if expected.isEmpty then (0, [])
  else if expected.all (fun pe => pe.2.isUnsat) then
    let m := firstMaxByPos expected
    (m.1, dedupExpectations [m.2] [])
  else
    let rest := expected.filter (fun pe => !pe.2.isUnsat)
    let position := (firstMaxByPos rest).1
    (position, dedupExpectations ((rest.filter (fun pe => pe.1 = position)).map Prod.snd) [])

/-- `format_expectations`: `"At position n: expected one of x, y, z"`. -/
def formatExpectations (position : Nat) (expectations : List String) : String :=
  "At position " ++ toString position ++ ": expected one of " ++
    String.intercalate ", " expectations

/-- `format_failure`: filter, stringify, format. -/
def formatFailure (expected : List (Nat × Expectation)) : String :=
  let fe := filterExpectations expected
  formatExpectations fe.1 (fe.2.map Expectation.format)

/-- The top-level driver `Parser.parse_string(string, all, whitespace)`
(lines 589-619): parse from position 0 to the input length with the
supplied whitespace parser (defaulting to `Whitespace()`); on success
return the value, unless `all` is set, in which case first consume
trailing whitespace and require the final position to equal the input
length; on every failure path raise a `ParseException` carrying
`format_failure` of the result's expectations. -/
def parseString (fuel : Nat) (p : Parser) (text : List Char) (all : Bool)
    (whitespace : Option Parser) : POut Value :=
  let space := whitespace.getD .whitespaceP
  bindE (parse fuel p text 0 text.length space) fun
    | .success e v ex =>
      if all = false then some (.ok v)
      else
        bindE (consumeD (parse fuel) fuel space text e text.length) fun pos' =>
          if pos' = text.length then some (.ok v)
          else some (.error ("Parse failure: " ++ formatFailure ex))
    | .failure ex => some (.error ("Parse failure: " ++ formatFailure ex))

/-! ## Helper lemmas -/

theorem thenMerge_none_left (b : Value) : thenMerge .none b = b := by
  cases b <;> rfl

theorem thenMerge_none_right (a : Value) : thenMerge a .none = a := by
  cases a <;> rfl

theorem thenMerge_tuple_tuple (xs ys : List Value) :
    thenMerge (.tuple xs) (.tuple ys) = .tuple (xs ++ ys) := rfl

theorem thenMerge_tuple_other (xs : List Value) (b : Value) (hn : b ≠ .none)
    (ht : b.isTuple = false) : thenMerge (.tuple xs) b = .tuple (xs ++ [b]) := by
  cases b <;> simp_all [thenMerge, Value.isTuple]

theorem thenMerge_other_tuple (a : Value) (ys : List Value) (hn : a ≠ .none)
    (ht : a.isTuple = false) : thenMerge a (.tuple ys) = .tuple (a :: ys) := by
  cases a <;> simp_all [thenMerge, Value.isTuple]

theorem thenMerge_other_other (a b : Value) (han : a ≠ .none) (hbn : b ≠ .none)
    (hat : a.isTuple = false) (hbt : b.isTuple = false) :
    thenMerge a b = .tuple [a, b] := by
  cases a <;> cases b <;> simp_all [thenMerge, Value.isTuple]

theorem parse_zero (p : Parser) (text : List Char) (pos e : Nat) (space : Parser) :
    parse 0 p text pos e space = Option.none := rfl

theorem parse_repeatP_unfold (fuel : Nat) (q : Parser) (mn mx : Option Nat)
    (text : List Char) (pos e : Nat) (space : Parser) :
    parse (fuel + 1) (.repeatP q mn mx) text pos e space =
      if mx = some 0 then
        some (.ok (.success pos (.list []) [(pos, .eUnsatisfiable)]))
      else if mn = some 1 ∧ mx = some 1 then parse fuel q text pos e space
      else
        bindE (repeatLoop (parse fuel) fuel q text pos e space mx [] []) fun out =>
          if repeatMinFail mn out.2.1.length then some (.ok (.failure out.2.2))
          else some (.ok (.success out.1 (.list out.2.1) out.2.2)) := rfl

theorem repeatLoop_zero (parseF : Parser → List Char → Nat → Nat → Parser → POut Result)
    (p : Parser) (text : List Char) (pos e : Nat) (space : Parser)
    (remaining : Option Nat) (acc : List Value) (lastEx : List (Nat × Expectation)) :
    repeatLoop parseF 0 p text pos e space remaining acc lastEx = Option.none := rfl

theorem repeatLoop_succ (parseF : Parser → List Char → Nat → Nat → Parser → POut Result)
    (f : Nat) (p : Parser) (text : List Char) (pos e : Nat) (space : Parser)
    (remaining : Option Nat) (acc : List Value) (lastEx : List (Nat × Expectation)) :
    repeatLoop parseF (f + 1) p text pos e space remaining acc lastEx =
      (if remaining = some 0 then some (.ok (pos, acc, lastEx))
      else
        bindE (parseF p text pos e space) fun
          | .failure ex => some (.ok (pos, acc, ex))
          | .success e' v ex =>
            repeatLoop parseF f p text e' e space (decrOpt remaining) (acc ++ [v]) ex) := rfl

theorem parse_then_succ_succ {fuel : Nat} {p1 p2 : Parser} {text : List Char}
    {pos e : Nat} {space : Parser} {e1 e2 : Nat} {a b : Value}
    {ex1 ex2 : List (Nat × Expectation)}
    (h1 : parse fuel p1 text pos e space = some (.ok (.success e1 a ex1)))
    (h2 : parse fuel p2 text e1 e space = some (.ok (.success e2 b ex2))) :
    parse (fuel + 1) (.then_ p1 p2) text pos e space =
      some (.ok (.success e2 (thenMerge a b) (ex1 ++ ex2))) := by
  simp [parse, bindE, h1, h2]

/-! ## Claims -/

/-- **C1.** For every pair of parsers combined with `Then` and every input
on which both succeed in sequence, the combined success's value is
`thenMerge a b` of the two values, and `thenMerge` implements exactly the
claimed rules: `None` on the left yields `b`; `None` on the right yields
`a`; two plain tuples concatenate; a plain tuple on one side
appends/prepends the other value; otherwise the pair `(a, b)` is built;
and a proper subclass of tuple — such as the `Pair` named tuple produced
by `Tag`, whose construction is also characterised here — is treated as an
opaque non-tuple by these rules. -/
theorem then_merges_values_by_the_claimed_rules :
    (∀ fuel p1 p2 text pos e space e1 e2 a b ex1 ex2,
      parse fuel p1 text pos e space = some (.ok (.success e1 a ex1)) →
      parse fuel p2 text e1 e space = some (.ok (.success e2 b ex2)) →
      parse (fuel + 1) (.then_ p1 p2) text pos e space =
        some (.ok (.success e2 (thenMerge a b) (ex1 ++ ex2)))) ∧
    (∀ b, thenMerge .none b = b) ∧
    (∀ a, thenMerge a .none = a) ∧
    (∀ xs ys, thenMerge (.tuple xs) (.tuple ys) = .tuple (xs ++ ys)) ∧
    (∀ xs b, b ≠ .none → b.isTuple = false →
      thenMerge (.tuple xs) b = .tuple (xs ++ [b])) ∧
    (∀ a ys, a ≠ .none → a.isTuple = false →
      thenMerge a (.tuple ys) = .tuple (a :: ys)) ∧
    (∀ a b, a ≠ .none → b ≠ .none → a.isTuple = false → b.isTuple = false →
      thenMerge a b = .tuple [a, b]) ∧
    (∀ k v, (Value.pair k v).isTuple = false) ∧
    (∀ fuel k p text pos e space e' v ex,
      parse fuel p text pos e space = some (.ok (.success e' v ex)) →
      parse (fuel + 1) (.tag k p) text pos e space =
        some (.ok (.success e' (.pair k v) ex))) := by
  refine ⟨?_, thenMerge_none_left, thenMerge_none_right, thenMerge_tuple_tuple,
    thenMerge_tuple_other, thenMerge_other_tuple, thenMerge_other_other,
    fun k v => rfl, ?_⟩
  · intro fuel p1 p2 text pos e space e1 e2 a b ex1 ex2 h1 h2
    exact parse_then_succ_succ h1 h2
  · intro fuel k p text pos e space e' v ex h
    simp [parse, bindE, h]

/-- Witness for C1: `CharIn "a"` followed by `CharIn "b"` on `"ab"`
produces the opaque pair of the two characters. -/
theorem then_merges_values_by_the_claimed_rules_witness :
    parse 4 (.then_ (.charIn ['a']) (.charIn ['b'])) ['a', 'b'] 0 2 .invalid =
      some (.ok (.success 2 (.tuple [.char 'a', .char 'b'])
        [(1, .eUnsatisfiable), (2, .eUnsatisfiable)])) :=
  then_merges_values_by_the_claimed_rules.1 3 (.charIn ['a']) (.charIn ['b'])
    ['a', 'b'] 0 2 .invalid 1 2 (.char 'a') (.char 'b')
    [(1, .eUnsatisfiable)] [(2, .eUnsatisfiable)] rfl rfl

/-- **C6.** `Exact(p)` first skips whitespace exactly once via the ambient
whitespace parser and then parses `p` with the isolated whitespace parser
(`Invalid` by default, via the `Exact` abbreviation) threaded beneath it;
`Invalid.parse` always fails with an `Unsatisfiable` expectation at the
given position, independently of the ambient whitespace parser and with no
whitespace consumption of its own (it succeeds to fail even at fuel 1,
where any whitespace-protocol call would exhaust the fuel); and whitespace
consumption with `Invalid` as the whitespace parser is the identity on
positions, so nothing beneath an `Exact` island skips ambient whitespace. -/
theorem exact_isolates_whitespace_and_invalid_always_fails :
    (∀ fuel p sp text pos e space,
      parse (fuel + 1) (.exact p sp) text pos e space =
        bindE (consumeD (parse fuel) fuel space text pos e)
          (fun pos' => parse fuel p text pos' e sp)) ∧
    (∀ p, Exact p = .exact p .invalid) ∧
    (∀ fuel text pos e space,
      parse (fuel + 1) .invalid text pos e space =
        some (.ok (.failure [(pos, .eUnsatisfiable)]))) ∧
    (∀ fuel text pos e space space',
      parse (fuel + 1) .invalid text pos e space =
        parse 1 .invalid text pos e space') ∧
    (∀ fuel text pos e,
      consumeD (parse (fuel + 1)) (fuel + 1) .invalid text pos e = some (.ok pos)) := by
  refine ⟨fun fuel p sp text pos e space => rfl, fun p => rfl,
    fun fuel text pos e space => rfl, fun fuel text pos e space space' => rfl,
    fun fuel text pos e => rfl⟩

/-- **C7.** Calling `parse` on a `Forward` whose target has not been
assigned raises an exception (modelled as an `Except.error`, never an
ordinary `Result`), and a `Forward` holding its most recently assigned
target delegates to that target with the same input, position, end and
whitespace arguments. -/
theorem forward_raises_when_unset_and_delegates_when_set :
    (∀ fuel text pos e space,
      parse (fuel + 1) (.forward Option.none) text pos e space =
        some (.error forwardUnsetMessage)) ∧
    (∀ fuel p text pos e space,
      parse (fuel + 1) (.forward (some p)) text pos e space =
        parse fuel p text pos e space) := by
  exact ⟨fun fuel text pos e space => rfl, fun fuel p text pos e space => rfl⟩

/-- **C5.** `parse_string` parses from position 0 to the input length with
the supplied whitespace parser, defaulting to `Whitespace()` when none is
supplied; in full-match mode a success must additionally consume trailing
whitespace up to exactly the input length before the value is returned;
without full-match mode the value is returned directly; and on every
failure path — an unsuccessful parse or a full-match residue — a
parse-error exception carrying the diagnostic formatted from the
accumulated expectations is raised instead of a value being returned. -/
theorem parse_string_drives_the_parse_as_claimed :
    (∀ fuel p text all,
      parseString fuel p text all Option.none =
        parseString fuel p text all (some .whitespaceP)) ∧
    (∀ fuel p text ws e' v ex,
      parse fuel p text 0 text.length ws = some (.ok (.success e' v ex)) →
      consumeD (parse fuel) fuel ws text e' text.length = some (.ok text.length) →
      parseString fuel p text true (some ws) = some (.ok v)) ∧
    (∀ fuel p text ws e' v ex pos',
      parse fuel p text 0 text.length ws = some (.ok (.success e' v ex)) →
      consumeD (parse fuel) fuel ws text e' text.length = some (.ok pos') →
      pos' ≠ text.length →
      parseString fuel p text true (some ws) =
        some (.error ("Parse failure: " ++ formatFailure ex))) ∧
    (∀ fuel p text ws e' v ex,
      parse fuel p text 0 text.length ws = some (.ok (.success e' v ex)) →
      parseString fuel p text false (some ws) = some (.ok v)) ∧
    (∀ fuel p text all ws ex,
      parse fuel p text 0 text.length ws = some (.ok (.failure ex)) →
      parseString fuel p text all (some ws) =
        some (.error ("Parse failure: " ++ formatFailure ex))) := by
  refine ⟨fun fuel p text all => rfl, ?_, ?_, ?_, ?_⟩
  · intro fuel p text ws e' v ex h1 h2
    simp [parseString, bindE, h1, h2]
  · intro fuel p text ws e' v ex pos' h1 h2 hne
    simp [parseString, bindE, h1, h2, hne]
  · intro fuel p text ws e' v ex h1
    simp [parseString, bindE, h1]
  · intro fuel p text all ws ex h1
    simp [parseString, bindE, h1]

/-- Witness for C5: `CharIn "a"` on `"a  "` succeeds in full-match mode
with the default whitespace parser consuming the trailing blanks. -/
theorem parse_string_drives_the_parse_as_claimed_witness :
    parseString 10 (.charIn ['a']) ['a', ' ', ' '] true (some .whitespaceP) =
      some (.ok (.char 'a')) :=
  parse_string_drives_the_parse_as_claimed.2.1 10 (.charIn ['a']) ['a', ' ', ' ']
    .whitespaceP 1 (.char 'a') [(1, .eUnsatisfiable)] (by rfl) (by rfl)

theorem repeatLoop_acc_le {parseF : Parser → List Char → Nat → Nat → Parser → POut Result} :
    ∀ {f : Nat} {p : Parser} {text : List Char} {pos e : Nat} {space : Parser}
      {remaining : Option Nat} {acc : List Value} {lastEx : List (Nat × Expectation)}
      {pos' : Nat} {vs : List Value} {ex : List (Nat × Expectation)},
      repeatLoop parseF f p text pos e space remaining acc lastEx = some (.ok (pos', vs, ex)) →
      acc.length ≤ vs.length := by
  intro f
  induction f with
  | zero => intro p text pos e space remaining acc lastEx pos' vs ex h; simp [repeatLoop_zero] at h
  | succ f ih =>
    intro p text pos e space remaining acc lastEx pos' vs ex h
    rw [repeatLoop_succ] at h
    by_cases h0 : remaining = some 0
    · rw [if_pos h0] at h
      obtain ⟨rfl, rfl, rfl⟩ : pos = pos' ∧ acc = vs ∧ lastEx = ex := by
        simpa using h
      exact Nat.le_refl _
    · rw [if_neg h0] at h
      cases hp : parseF p text pos e space with
      | none => rw [hp] at h; simp [bindE] at h
      | some r =>
        cases r with
        | error m => rw [hp] at h; simp [bindE] at h
        | ok r =>
          cases r with
          | failure fex =>
            rw [hp] at h; simp only [bindE] at h
            obtain ⟨rfl, rfl, rfl⟩ : pos = pos' ∧ acc = vs ∧ fex = ex := by
              simpa using h
            exact Nat.le_refl _
          | success e' v sex =>
            rw [hp] at h; simp only [bindE] at h
            have := ih h
            simpa using Nat.le_trans (by simp) this

theorem repeatLoop_max_bound {parseF : Parser → List Char → Nat → Nat → Parser → POut Result} :
    ∀ {f : Nat} {p : Parser} {text : List Char} {pos e : Nat} {space : Parser}
      {M : Nat} {acc : List Value} {lastEx : List (Nat × Expectation)}
      {pos' : Nat} {vs : List Value} {ex : List (Nat × Expectation)},
      repeatLoop parseF f p text pos e space (some M) acc lastEx = some (.ok (pos', vs, ex)) →
      vs.length ≤ acc.length + M := by
  intro f
  induction f with
  | zero => intro p text pos e space M acc lastEx pos' vs ex h; simp [repeatLoop_zero] at h
  | succ f ih =>
    intro p text pos e space M acc lastEx pos' vs ex h
    rw [repeatLoop_succ] at h
    by_cases h0 : (some M : Option Nat) = some 0
    · rw [if_pos h0] at h
      obtain ⟨rfl, rfl, rfl⟩ : pos = pos' ∧ acc = vs ∧ lastEx = ex := by
        simpa using h
      exact Nat.le_add_right _ _
    · rw [if_neg h0] at h
      have hM : M ≠ 0 := by simpa using h0
      obtain ⟨M', rfl⟩ : ∃ M', M = M' + 1 := ⟨M - 1, by omega⟩
      cases hp : parseF p text pos e space with
      | none => rw [hp] at h; simp [bindE] at h
      | some r =>
        cases r with
        | error m => rw [hp] at h; simp [bindE] at h
        | ok r =>
          cases r with
          | failure fex =>
            rw [hp] at h; simp only [bindE] at h
            obtain ⟨rfl, rfl, rfl⟩ : pos = pos' ∧ acc = vs ∧ fex = ex := by
              simpa using h
            exact Nat.le_add_right _ _
          | success e' v sex =>
            rw [hp] at h; simp only [bindE, decrOpt] at h
            have := ih h
            simp at this
            omega

/-- **C3 counterexample.** Two concrete refutations of the claim as
stated: a successful `Repeat(CharIn("a"), 1, 1)` on `"a"` short-circuits
to the underlying parser and returns the bare character `'a'` rather than
a collected sequence of between 1 and 1 values; and `Repeat(CharIn("a"),
5, 0)` on `"a"` succeeds with an empty sequence of 0 < 5 = min collected
values, so a successful `Repeat` can return fewer than `min` elements. -/
theorem repeat_counterexample :
    (parse 5 (.repeatP (.charIn ['a']) (some 1) (some 1)) ['a'] 0 1 .invalid =
        some (.ok (.success 1 (.char 'a') [(1, .eUnsatisfiable)])) ∧
      Value.isList (.char 'a') = false) ∧
    parse 5 (.repeatP (.charIn ['a']) (some 5) (some 0)) ['a'] 0 1 .invalid =
      some (.ok (.success 0 (.list []) [(0, .eUnsatisfiable)])) :=
  ⟨⟨by rfl, rfl⟩, by rfl⟩

/-- **C3 (amended).** Apart from the two short-circuits in `Repeat.parse`
— `max = 0` succeeds immediately with an empty sequence regardless of
`min`, and `min = max = 1` delegates to the underlying parser and returns
its raw value unwrapped — a successful `Repeat(p, min, max)` returns a
collected sequence of at least `min` and at most `max` values;
`Repeat(p, 0, max)` never fails; and `Repeat(p, 1, unbounded)` fails
exactly when zero applications of `p` succeed, i.e. when the first
application fails. -/
theorem repeat_respects_bounds :
    (∀ fuel q mn mx text pos e space e' v ex,
      mx ≠ some 0 → ¬(mn = some 1 ∧ mx = some 1) →
      parse (fuel + 1) (.repeatP q mn mx) text pos e space =
        some (.ok (.success e' v ex)) →
      v.isList = true ∧ (∀ m, mn = some m → m ≤ v.listLen) ∧
        (∀ M, mx = some M → v.listLen ≤ M)) ∧
    (∀ fuel q mn text pos e space,
      parse (fuel + 1) (.repeatP q mn (some 0)) text pos e space =
        some (.ok (.success pos (.list []) [(pos, .eUnsatisfiable)]))) ∧
    (∀ fuel q mx text pos e space ex,
      parse fuel (.repeatP q (some 0) mx) text pos e space ≠
        some (.ok (.failure ex))) ∧
    (∀ fuel q text pos e space ex,
      parse (fuel + 1) (.repeatP q (some 1) Option.none) text pos e space =
          some (.ok (.failure ex)) ↔
        parse fuel q text pos e space = some (.ok (.failure ex))) := by
  refine ⟨?_, ?_, ?_, ?_⟩
  · intro fuel q mn mx text pos e space e' v ex h0 h11 h
    rw [parse_repeatP_unfold, if_neg h0, if_neg h11] at h
    cases hl : repeatLoop (parse fuel) fuel q text pos e space mx [] [] with
    | none => rw [hl] at h; simp [bindE] at h
    | some r =>
      cases r with
      | error m => rw [hl] at h; simp [bindE] at h
      | ok out =>
        obtain ⟨pos', vs, lastEx⟩ := out
        rw [hl] at h; simp only [bindE] at h
        by_cases hmin : repeatMinFail mn vs.length = true
        · rw [if_pos hmin] at h; simp at h
        · rw [if_neg hmin] at h
          obtain ⟨rfl, rfl, rfl⟩ : pos' = e' ∧ Value.list vs = v ∧ lastEx = ex := by
            simpa using h
          refine ⟨rfl, ?_, ?_⟩
          · intro m hm
            subst hm
            have hb : ¬(m ≠ 0 ∧ vs.length < m) := by
              intro ⟨hm0, hlt⟩
              exact hmin (by simp [repeatMinFail, hm0, hlt])
            simp only [Value.listLen]
            by_cases hm0 : m = 0
            · omega
            · have hnl : ¬vs.length < m := fun hlt => hb ⟨hm0, hlt⟩
              omega
          · intro M hM
            subst hM
            simpa [Value.listLen] using repeatLoop_max_bound hl
  · intro fuel q mn text pos e space
    rw [parse_repeatP_unfold, if_pos rfl]
  · intro fuel q mx text pos e space ex
    cases fuel with
    | zero => simp [parse_zero]
    | succ fuel =>
      intro h
      rw [parse_repeatP_unfold] at h
      by_cases h0 : mx = some 0
      · rw [if_pos h0] at h; simp at h
      · rw [if_neg h0, if_neg (by simp)] at h
        cases hl : repeatLoop (parse fuel) fuel q text pos e space mx [] [] with
        | none => rw [hl] at h; simp [bindE] at h
        | some r =>
          cases r with
          | error m => rw [hl] at h; simp [bindE] at h
          | ok out =>
            rw [hl] at h; simp only [bindE] at h
            rw [if_neg (by simp [repeatMinFail])] at h
            simp at h
  · intro fuel q text pos e space ex
    constructor
    · intro h
      rw [parse_repeatP_unfold, if_neg (by simp), if_neg (by simp)] at h
      cases hl : repeatLoop (parse fuel) fuel q text pos e space Option.none [] [] with
      | none => rw [hl] at h; simp [bindE] at h
      | some r =>
        cases r with
        | error m => rw [hl] at h; simp [bindE] at h
        | ok out =>
          obtain ⟨pos', vs, lastEx⟩ := out
          rw [hl] at h; simp only [bindE] at h
          by_cases hmin : repeatMinFail (some 1) vs.length = true
          · rw [if_pos hmin] at h
            have hvs : vs = [] := by
              simpa [repeatMinFail] using hmin
            subst hvs
            have hex : lastEx = ex := by simpa using h
            cases fuel with
            | zero => simp [repeatLoop_zero] at hl
            | succ f =>
              rw [repeatLoop_succ, if_neg (by simp)] at hl
              cases hp : parse (f + 1) q text pos e space with
              | none => rw [hp] at hl; simp [bindE] at hl
              | some r =>
                cases r with
                | error m => rw [hp] at hl; simp [bindE] at hl
                | ok r =>
                  cases r with
                  | failure fex =>
                    rw [hp] at hl; simp only [bindE] at hl
                    have hfex : fex = lastEx :=
                      (show pos = pos' ∧ fex = lastEx by simpa using hl).2
                    rw [hfex, hex]
                  | success e2 v2 sex =>
                    rw [hp] at hl; simp only [bindE] at hl
                    have := repeatLoop_acc_le hl
                    simp at this
          · rw [if_neg hmin] at h; simp at h
    · intro h
      cases fuel with
      | zero => rw [parse_zero] at h; simp at h
      | succ f =>
        rw [parse_repeatP_unfold, if_neg (by simp), if_neg (by simp),
          repeatLoop_succ, if_neg (by simp), h]
        simp [bindE, repeatMinFail]

/-- Witness for C3 (amended): `Repeat(CharIn("a"), 2, 3)` on `"aaaa"`
collects exactly three characters, within the bounds 2 and 3. -/
theorem repeat_respects_bounds_witness :
    Value.isList (.list [.char 'a', .char 'a', .char 'a']) = true ∧
      (∀ m, (some 2 : Option Nat) = some m →
        m ≤ Value.listLen (.list [.char 'a', .char 'a', .char 'a'])) ∧
      (∀ M, (some 3 : Option Nat) = some M →
        Value.listLen (.list [.char 'a', .char 'a', .char 'a']) ≤ M) :=
  repeat_respects_bounds.1 7 (.charIn ['a']) (some 2) (some 3)
    ['a', 'a', 'a', 'a'] 0 4 .invalid 3 (.list [.char 'a', .char 'a', .char 'a'])
    [(3, .eUnsatisfiable)] (by simp) (by simp) (by rfl)

theorem foldlMax_mem : ∀ (xs : List (Nat × Expectation)) (x : Nat × Expectation),
    xs.foldl (fun best y => if y.1 > best.1 then y else best) x ∈ x :: xs := by
  intro xs
  induction xs with
  | nil => intro x; simp
  | cons z zs ih =>
    intro x
    simp only [List.foldl_cons]
    by_cases hz : z.1 > x.1
    · rw [if_pos hz]
      exact List.mem_cons_of_mem x (ih z)
    · rw [if_neg hz]
      rcases List.mem_cons.mp (ih x) with h1 | h1
      · rw [h1]; simp
      · simp [h1]

theorem foldlMax_ge : ∀ (xs : List (Nat × Expectation)) (x y : Nat × Expectation),
    y ∈ x :: xs →
    y.1 ≤ (xs.foldl (fun best y => if y.1 > best.1 then y else best) x).1 := by
  intro xs
  induction xs with
  | nil =>
    intro x y hy
    simp at hy
    simp [hy]
  | cons z zs ih =>
    intro x y hy
    simp only [List.foldl_cons]
    have hstep : x.1 ≤ (if z.1 > x.1 then z else x).1 ∧
        z.1 ≤ (if z.1 > x.1 then z else x).1 := by
      by_cases hz : z.1 > x.1 <;> simp [hz] <;> omega
    rcases List.mem_cons.mp hy with h1 | h1
    · have hh := ih _ _ (List.mem_cons_self (if z.1 > x.1 then z else x) zs)
      rw [h1]
      exact le_trans hstep.1 hh
    · rcases List.mem_cons.mp h1 with h2 | h2
      · have hh := ih _ _ (List.mem_cons_self (if z.1 > x.1 then z else x) zs)
        rw [h2]
        exact le_trans hstep.2 hh
      · exact ih _ _ (List.mem_cons_of_mem _ h2)

theorem firstMax_mem (x : Nat × Expectation) (xs : List (Nat × Expectation)) :
    firstMaxByPos (x :: xs) ∈ x :: xs :=
  foldlMax_mem xs x

theorem firstMax_ge (x y : Nat × Expectation) (xs : List (Nat × Expectation))
    (hy : y ∈ x :: xs) : y.1 ≤ (firstMaxByPos (x :: xs)).1 :=
  foldlMax_ge xs x y hy

theorem dedup_subset : ∀ (l : List Expectation) (used : List (Nat × String))
    (x : Expectation), x ∈ dedupExpectations l used → x ∈ l := by
  intro l
  induction l with
  | nil => intro used x h; simp [dedupExpectations] at h
  | cons a as ih =>
    intro used x h
    simp only [dedupExpectations] at h
    by_cases hk : (a.ekind, a.format) ∈ used
    · rw [if_pos hk] at h
      exact List.mem_cons_of_mem _ (ih _ _ h)
    · rw [if_neg hk] at h
      rcases List.mem_cons.mp h with h1 | h1
      · simp [h1]
      · exact List.mem_cons_of_mem _ (ih _ _ h1)

theorem dedup_not_used : ∀ (l : List Expectation) (used : List (Nat × String))
    (x : Expectation), x ∈ dedupExpectations l used → (x.ekind, x.format) ∉ used := by
  intro l
  induction l with
  | nil => intro used x h; simp [dedupExpectations] at h
  | cons a as ih =>
    intro used x h
    simp only [dedupExpectations] at h
    by_cases hk : (a.ekind, a.format) ∈ used
    · rw [if_pos hk] at h
      exact ih _ _ h
    · rw [if_neg hk] at h
      rcases List.mem_cons.mp h with h1 | h1
      · rw [h1]; exact hk
      · intro hm
        exact ih _ _ h1 (List.mem_cons_of_mem _ hm)

theorem dedup_pairwise : ∀ (l : List Expectation) (used : List (Nat × String)),
    List.Pairwise (fun a b => (a.ekind, a.format) ≠ (b.ekind, b.format))
      (dedupExpectations l used) := by
  intro l
  induction l with
  | nil => intro used; simp [dedupExpectations]
  | cons a as ih =>
    intro used
    simp only [dedupExpectations]
    by_cases hk : (a.ekind, a.format) ∈ used
    · rw [if_pos hk]; exact ih _
    · rw [if_neg hk]
      refine List.Pairwise.cons ?_ (ih _)
      intro b hb heq
      have hnu := dedup_not_used _ _ _ hb
      apply hnu
      rw [← heq]
      exact List.mem_cons_self _ _

/-- **C4 counterexample.** The claim orders the steps as: first take the
maximum position among *all* accumulated expectations, then keep the
entries there, then drop `Unsatisfiable` entries.  The code does the
opposite: it drops `Unsatisfiable` entries first (whenever any other entry
exists anywhere) and only then maximises.  For the list with an
`Unsatisfiable` at position 5 and a string-literal expectation at position
3, the maximum position among all entries is 5, yet the code reports
position 3 — so the claimed step order mis-describes the code. -/
theorem filter_expectations_counterexample :
    filterExpectations [(5, .eUnsatisfiable), (3, .eStringLiteral ['x'])] =
        (3, [.eStringLiteral ['x']]) ∧
      formatFailure [(5, .eUnsatisfiable), (3, .eStringLiteral ['x'])] =
        "At position 3: expected one of \"x\"" ∧
      (3 : Nat) ≠ 5 :=
  ⟨by rfl, by rfl, by decide⟩

/-- **C4 (amended).** The diagnostic message is produced by: (a) discarding
`Unsatisfiable` entries unless every entry is `Unsatisfiable` — in that
all-`Unsatisfiable` case exactly one survives, at the maximum position,
rendered as "EOF"; (b) finding the maximum failure position among the
surviving expectations; (c) keeping only the survivors at that position;
(d) deduplicating them by kind and rendered text; and (e) rendering
"At position N: expected one of X, Y, Z".  In particular, for expectations
at positions 2, 5, 5 and 3 (none `Unsatisfiable`) the message reports
position 5 with the two deduplicated expectations at position 5, never
position 2 or 3. -/
theorem format_failure_selects_max_position_after_dropping_unsat :
    (∀ expected, formatFailure expected =
      formatExpectations (filterExpectations expected).1
        ((filterExpectations expected).2.map Expectation.format)) ∧
    (∀ x xs, (∀ pe ∈ x :: xs, pe.2.isUnsat = true) →
      filterExpectations (x :: xs) = ((firstMaxByPos (x :: xs)).1, [.eUnsatisfiable]) ∧
      (∀ pe ∈ x :: xs, pe.1 ≤ (firstMaxByPos (x :: xs)).1)) ∧
    (∀ expected p0, p0 ∈ expected → p0.2.isUnsat = false →
      (filterExpectations expected).1 =
          (firstMaxByPos (expected.filter (fun pe => !pe.2.isUnsat))).1 ∧
        (∀ pe ∈ expected, pe.2.isUnsat = false →
          pe.1 ≤ (filterExpectations expected).1) ∧
        (∀ x ∈ (filterExpectations expected).2,
          x.isUnsat = false ∧ ((filterExpectations expected).1, x) ∈ expected) ∧
        List.Pairwise (fun a b => (a.ekind, a.format) ≠ (b.ekind, b.format))
          (filterExpectations expected).2) ∧
    formatFailure [(2, .eStringLiteral ['w']), (5, .eStringLiteral ['y']),
        (5, .eAnyChar), (3, .eStringLiteral ['z'])] =
      "At position 5: expected one of \"y\", any char" ∧
    formatFailure [(2, .eStringLiteral ['w']), (5, .eStringLiteral ['y']),
        (5, .eStringLiteral ['y']), (3, .eStringLiteral ['z'])] =
      "At position 5: expected one of \"y\"" := by
  refine ⟨fun expected => rfl, ?_, ?_, by rfl, by rfl⟩
  · intro x xs hall
    have hmem := firstMax_mem x xs
    have hu : (firstMaxByPos (x :: xs)).2 = .eUnsatisfiable := by
      have hv := hall _ hmem
      cases h2 : (firstMaxByPos (x :: xs)).2 <;>
        simp [h2, Expectation.isUnsat] at hv ⊢
    refine ⟨?_, fun pe hpe => firstMax_ge x pe xs hpe⟩
    show (if (x :: xs).isEmpty then ((0 : Nat), ([] : List Expectation)) else _) = _
    rw [if_neg (by simp)]
    rw [if_pos (List.all_eq_true.mpr hall)]
    show ((firstMaxByPos (x :: xs)).1,
      dedupExpectations [(firstMaxByPos (x :: xs)).2] []) = _
    rw [hu]
    rfl
  · intro expected p0 hp0 hp0u
    have hne : expected.isEmpty = false := by
      cases expected with
      | nil => simp at hp0
      | cons a as => rfl
    have hnotall : ¬((expected.all fun pe => pe.2.isUnsat) = true) := by
      intro hall
      have := List.all_eq_true.mp hall p0 hp0
      rw [hp0u] at this
      exact Bool.false_ne_true this
    have hfe : filterExpectations expected =
        ((firstMaxByPos (expected.filter (fun pe => !pe.2.isUnsat))).1,
          dedupExpectations
            (((expected.filter (fun pe => !pe.2.isUnsat)).filter
              (fun pe => pe.1 =
                (firstMaxByPos (expected.filter (fun pe => !pe.2.isUnsat))).1)).map
              Prod.snd) []) := by
      show (if expected.isEmpty then ((0 : Nat), ([] : List Expectation)) else _) = _
      rw [if_neg (by simp [hne]), if_neg hnotall]
    refine ⟨by rw [hfe], ?_, ?_, ?_⟩
    · intro pe hpe hpeu
      have hrest : pe ∈ expected.filter (fun pe => !pe.2.isUnsat) :=
        List.mem_filter.mpr ⟨hpe, by simp [hpeu]⟩
      rw [hfe]
      cases hr : expected.filter (fun pe => !pe.2.isUnsat) with
      | nil => rw [hr] at hrest; simp at hrest
      | cons r rs =>
        rw [hr] at hrest
        exact firstMax_ge r pe rs hrest
    · intro x hx
      rw [hfe] at hx
      have hx1 := dedup_subset _ _ _ hx
      obtain ⟨pe, hpef, hpex⟩ := List.mem_map.mp hx1
      have hpe2 := List.mem_filter.mp hpef
      have hpe3 := List.mem_filter.mp hpe2.1
      have hposN : pe.1 = (firstMaxByPos (expected.filter (fun pe => !pe.2.isUnsat))).1 :=
        of_decide_eq_true hpe2.2
      have hunsat : pe.2.isUnsat = false := by
        have := hpe3.2
        simp at this
        exact this
      constructor
      · rw [← hpex]; exact hunsat
      · rw [hfe]
        have : ((firstMaxByPos (expected.filter (fun pe => !pe.2.isUnsat))).1, x) = pe := by
          rw [← hposN, ← hpex]
        rw [this]
        exact hpe3.1
    · rw [hfe]
      exact dedup_pairwise _ _

/-- Witness for C4 (amended): the mixed-case clause applied to the
counterexample list reports position 3 — the maximum among non-
`Unsatisfiable` entries — and its survivor is the non-`Unsatisfiable`
string-literal entry at position 3. -/
theorem format_failure_selects_max_position_witness :
    (filterExpectations [(5, .eUnsatisfiable), (3, .eStringLiteral ['x'])]).1 =
        (firstMaxByPos ([(5, .eUnsatisfiable), (3, .eStringLiteral ['x'])].filter
          (fun pe => !pe.2.isUnsat))).1 ∧
      (∀ pe ∈ [((5 : Nat), Expectation.eUnsatisfiable), (3, .eStringLiteral ['x'])],
        pe.2.isUnsat = false →
        pe.1 ≤ (filterExpectations [(5, .eUnsatisfiable), (3, .eStringLiteral ['x'])]).1) ∧
      (∀ x ∈ (filterExpectations [(5, .eUnsatisfiable), (3, .eStringLiteral ['x'])]).2,
        x.isUnsat = false ∧
          ((filterExpectations [(5, .eUnsatisfiable), (3, .eStringLiteral ['x'])]).1, x) ∈
            [((5 : Nat), Expectation.eUnsatisfiable), (3, .eStringLiteral ['x'])]) ∧
      List.Pairwise (fun a b => (a.ekind, a.format) ≠ (b.ekind, b.format))
        (filterExpectations [(5, .eUnsatisfiable), (3, .eStringLiteral ['x'])]).2 :=
  format_failure_selects_max_position_after_dropping_unsat.2.2.1
    [(5, .eUnsatisfiable), (3, .eStringLiteral ['x'])]
    (3, .eStringLiteral ['x']) (by simp) (by rfl)

/-- All parsers in the list fail at the given position, producing (in
order) the concatenated expectation lists `exs`. -/
inductive AllFail (parseF : Parser → List Char → Nat → Nat → Parser → POut Result)
    (text : List Char) (pos e : Nat) (space : Parser) :
    List Parser → List (Nat × Expectation) → Prop where
  | nil : AllFail parseF text pos e space [] []
  | cons {p : Parser} {ps : List Parser} {ex exs : List (Nat × Expectation)} :
      parseF p text pos e space = some (.ok (.failure ex)) →
      AllFail parseF text pos e space ps exs →
      AllFail parseF text pos e space (p :: ps) (ex ++ exs)

theorem parse_first_unfold (fuel : Nat) (ps : List Parser) (text : List Char)
    (pos e : Nat) (space : Parser) :
    parse (fuel + 1) (.first ps) text pos e space =
      firstAux (parse fuel) ps text pos e space [] := rfl

theorem parse_longest_unfold (fuel : Nat) (ps : List Parser) (text : List Char)
    (pos e : Nat) (space : Parser) :
    parse (fuel + 1) (.longest ps) text pos e space =
      longestAux (parse fuel) ps text pos e space [] [] := rfl

theorem firstAux_allfail_prefix
    {parseF : Parser → List Char → Nat → Nat → Parser → POut Result}
    {text : List Char} {pos e : Nat} {space : Parser}
    {ps1 : List Parser} {exs : List (Nat × Expectation)}
    (h : AllFail parseF text pos e space ps1 exs) :
    ∀ (rest : List Parser) (acc : List (Nat × Expectation)),
      firstAux parseF (ps1 ++ rest) text pos e space acc =
        firstAux parseF rest text pos e space (acc ++ exs) := by
  induction h with
  | nil => intro rest acc; rw [List.append_nil, List.nil_append]
  | cons hp _hps ih =>
    intro rest acc
    rw [List.cons_append]
    simp only [firstAux, hp, bindE]
    rw [ih rest _, List.append_assoc]

theorem longestAux_allfail
    {parseF : Parser → List Char → Nat → Nat → Parser → POut Result}
    {text : List Char} {pos e : Nat} {space : Parser}
    {ps : List Parser} {exs : List (Nat × Expectation)}
    (h : AllFail parseF text pos e space ps exs) :
    ∀ errs, longestAux parseF ps text pos e space [] errs =
      some (.ok (.failure (errs ++ exs))) := by
  induction h with
  | nil => intro errs; rw [List.append_nil]; rfl
  | cons hp _hps ih =>
    intro errs
    simp only [longestAux, hp, bindE]
    rw [ih _, List.append_assoc]

theorem maxByEnd_cons (s z : Result) (zs : List Result) :
    maxByEnd s (z :: zs) = maxByEnd (if z.endPos > s.endPos then z else s) zs := rfl

theorem maxByEnd_mem : ∀ (rest : List Result) (s : Result),
    maxByEnd s rest ∈ s :: rest := by
  intro rest
  induction rest with
  | nil => intro s; simp [maxByEnd]
  | cons z zs ih =>
    intro s
    rw [maxByEnd_cons]
    by_cases hz : z.endPos > s.endPos
    · rw [if_pos hz]
      exact List.mem_cons_of_mem s (ih z)
    · rw [if_neg hz]
      rcases List.mem_cons.mp (ih s) with h1 | h1
      · rw [h1]; simp
      · simp [h1]

theorem maxByEnd_ge : ∀ (rest : List Result) (s r : Result),
    r ∈ s :: rest → r.endPos ≤ (maxByEnd s rest).endPos := by
  intro rest
  induction rest with
  | nil =>
    intro s r hr
    simp at hr
    simp [maxByEnd, hr]
  | cons z zs ih =>
    intro s r hr
    rw [maxByEnd_cons]
    have hstep : s.endPos ≤ (if z.endPos > s.endPos then z else s).endPos ∧
        z.endPos ≤ (if z.endPos > s.endPos then z else s).endPos := by
      by_cases hz : z.endPos > s.endPos <;> simp [hz] <;> omega
    rcases List.mem_cons.mp hr with h1 | h1
    · have hh := ih _ _ (List.mem_cons_self (if z.endPos > s.endPos then z else s) zs)
      rw [h1]
      exact le_trans hstep.1 hh
    · rcases List.mem_cons.mp h1 with h2 | h2
      · have hh := ih _ _ (List.mem_cons_self (if z.endPos > s.endPos then z else s) zs)
        rw [h2]
        exact le_trans hstep.2 hh
      · exact ih _ _ (List.mem_cons_of_mem _ h2)

theorem longestAux_success
    {parseF : Parser → List Char → Nat → Nat → Parser → POut Result}
    {text : List Char} {pos e : Nat} {space : Parser} :
    ∀ (ps : List Parser) (succ : List Result) (errs : List (Nat × Expectation))
      (e' : Nat) (v : Value) (ex : List (Nat × Expectation)),
      longestAux parseF ps text pos e space succ errs = some (.ok (.success e' v ex)) →
      ((Result.success e' v ex ∈ succ) ∨
        ∃ p ∈ ps, parseF p text pos e space = some (.ok (.success e' v ex))) ∧
      (∀ s ∈ succ, s.endPos ≤ e') ∧
      (∀ q ∈ ps, ∀ e2 v2 ex2,
        parseF q text pos e space = some (.ok (.success e2 v2 ex2)) → e2 ≤ e') := by
  intro ps
  induction ps with
  | nil =>
    intro succ errs e' v ex h
    cases succ with
    | nil => simp [longestAux] at h
    | cons s rest =>
      simp only [longestAux] at h
      have hmax : maxByEnd s rest = .success e' v ex := by simpa using h
      refine ⟨Or.inl ?_, ?_, by simp⟩
      · rw [← hmax]; exact maxByEnd_mem rest s
      · intro t ht
        have := maxByEnd_ge rest s t ht
        rw [hmax] at this
        simpa [Result.endPos] using this
  | cons p ps' ih =>
    intro succ errs e' v ex h
    simp only [longestAux] at h
    cases hp : parseF p text pos e space with
    | none => rw [hp] at h; simp [bindE] at h
    | some r =>
      cases r with
      | error m => rw [hp] at h; simp [bindE] at h
      | ok r =>
        cases r with
        | failure fex =>
          rw [hp] at h; simp only [bindE] at h
          obtain ⟨hmem, hsucc, hps⟩ := ih _ _ _ _ _ h
          refine ⟨?_, hsucc, ?_⟩
          · rcases hmem with h1 | ⟨q, hq, hqs⟩
            · exact Or.inl h1
            · exact Or.inr ⟨q, List.mem_cons_of_mem _ hq, hqs⟩
          · intro q hq e2 v2 ex2 hq2
            rcases List.mem_cons.mp hq with h1 | h1
            · rw [h1, hp] at hq2; simp at hq2
            · exact hps q h1 e2 v2 ex2 hq2
        | success es vs exs =>
          rw [hp] at h; simp only [bindE] at h
          obtain ⟨hmem, hsucc, hps⟩ := ih _ _ _ _ _ h
          have hes : es ≤ e' := by
            have := hsucc (.success es vs exs) (by simp)
            simpa [Result.endPos] using this
          refine ⟨?_, ?_, ?_⟩
          · rcases hmem with h1 | ⟨q, hq, hqs⟩
            · rcases List.mem_append.mp h1 with h2 | h2
              · exact Or.inl h2
              · refine Or.inr ⟨p, List.mem_cons_self _ _, ?_⟩
                rw [hp, ← List.mem_singleton.mp h2]
            · exact Or.inr ⟨q, List.mem_cons_of_mem _ hq, hqs⟩
          · intro s hs
            exact hsucc s (List.mem_append.mpr (Or.inl hs))
          · intro q hq e2 v2 ex2 hq2
            rcases List.mem_cons.mp hq with h1 | h1
            · rw [h1, hp] at hq2
              have he : Result.success es vs exs = Result.success e2 v2 ex2 := by
                simpa using hq2
              cases he
              omega
            · exact hps q h1 e2 v2 ex2 hq2

/-- **C2.** `First` returns the result of the first operand, in the given
order, whose parse succeeds at the position (with the earlier failures'
expectations appended), regardless of how much input later operands would
match; `Longest` returns a successful operand whose end position is
maximal among all successful operands; when every operand fails, both fail
with the union (in-order concatenation) of all operands' expectations; and
concretely `Longest(Literal("a"), Literal("ab"))` applied to `"ab"`
matches to end position 2 while `First` with the same operands matches
only to end position 1. -/
theorem first_and_longest_alternation :
    (∀ fuel ps1 p ps2 text pos e space exs e' v ex,
      AllFail (parse fuel) text pos e space ps1 exs →
      parse fuel p text pos e space = some (.ok (.success e' v ex)) →
      parse (fuel + 1) (.first (ps1 ++ p :: ps2)) text pos e space =
        some (.ok (.success e' v (ex ++ exs)))) ∧
    (∀ fuel ps text pos e space exs,
      AllFail (parse fuel) text pos e space ps exs →
      parse (fuel + 1) (.first ps) text pos e space = some (.ok (.failure exs)) ∧
      parse (fuel + 1) (.longest ps) text pos e space = some (.ok (.failure exs))) ∧
    (∀ fuel ps text pos e space e' v ex,
      parse (fuel + 1) (.longest ps) text pos e space =
          some (.ok (.success e' v ex)) →
      (∃ p ∈ ps, parse fuel p text pos e space = some (.ok (.success e' v ex))) ∧
      (∀ q ∈ ps, ∀ e2 v2 ex2,
        parse fuel q text pos e space = some (.ok (.success e2 v2 ex2)) → e2 ≤ e')) ∧
    parse 3 (.longest [.literal ['a'], .literal ['a', 'b']]) ['a', 'b'] 0 2 .invalid =
      some (.ok (.success 2 .none [(2, .eUnsatisfiable)])) ∧
    parse 3 (.first [.literal ['a'], .literal ['a', 'b']]) ['a', 'b'] 0 2 .invalid =
      some (.ok (.success 1 .none [(1, .eUnsatisfiable)])) := by
  refine ⟨?_, ?_, ?_, by rfl, by rfl⟩
  · intro fuel ps1 p ps2 text pos e space exs e' v ex hfail hsucc
    rw [parse_first_unfold, firstAux_allfail_prefix hfail]
    simp only [firstAux, hsucc, bindE, List.nil_append]
  · intro fuel ps text pos e space exs hfail
    constructor
    · rw [parse_first_unfold, ← List.append_nil ps, firstAux_allfail_prefix hfail]
      rfl
    · rw [parse_longest_unfold, longestAux_allfail hfail]
      rfl
  · intro fuel ps text pos e space e' v ex h
    rw [parse_longest_unfold] at h
    obtain ⟨hmem, _hsucc, hps⟩ := longestAux_success ps [] [] e' v ex h
    refine ⟨?_, hps⟩
    rcases hmem with h1 | h1
    · simp at h1
    · exact h1

/-- Witness for C2: with `Literal("x")` failing first, `First` returns
`Literal("a")`'s success on `"ab"`, appending the earlier failure's
expectations. -/
theorem first_and_longest_alternation_witness :
    parse 3 (.first [.literal ['x'], .literal ['a']]) ['a', 'b'] 0 2 .invalid =
      some (.ok (.success 1 .none
        ([(1, .eUnsatisfiable)] ++ [(0, .eStringLiteral ['x'])]))) :=
  first_and_longest_alternation.1 2 [.literal ['x']] (.literal ['a']) []
    ['a', 'b'] 0 2 .invalid [(0, .eStringLiteral ['x'])] 1 .none
    [(1, .eUnsatisfiable)]
    (List.append_nil [((0 : Nat), Expectation.eStringLiteral ['x'])] ▸
      AllFail.cons (by rfl) AllFail.nil)
    (by rfl)

theorem parse_then_fail_first {fuel : Nat} {p1 p2 : Parser} {text : List Char}
    {pos e : Nat} {space : Parser} {ex : List (Nat × Expectation)}
    (h1 : parse fuel p1 text pos e space = some (.ok (.failure ex))) :
    parse (fuel + 1) (.then_ p1 p2) text pos e space = some (.ok (.failure ex)) := by
  simp [parse, bindE, h1]

theorem parse_then_succ_fail {fuel : Nat} {p1 p2 : Parser} {text : List Char}
    {pos e : Nat} {space : Parser} {e1 : Nat} {a : Value}
    {ex1 ex2 : List (Nat × Expectation)}
    (h1 : parse fuel p1 text pos e space = some (.ok (.success e1 a ex1)))
    (h2 : parse fuel p2 text e1 e space = some (.ok (.failure ex2))) :
    parse (fuel + 1) (.then_ p1 p2) text pos e space =
      some (.ok (.failure (ex1 ++ ex2))) := by
  simp [parse, bindE, h1, h2]

theorem parse_returnP (fuel : Nat) (v : Value) (text : List Char) (pos e : Nat)
    (space : Parser) :
    parse (fuel + 1) (.returnP v) text pos e space =
      some (.ok (.success pos v [(pos, .eUnsatisfiable)])) := rfl

/-- **C9.** `Then`'s value merge is a monoid up to produced value and end
position: `Return(None)` — which succeeds with value `None` consuming no
input — is a left and a right identity for `Then` (the combined parser
succeeds exactly when `p` does, with `p`'s value and `p`'s end position),
and the concatenation case is associative: when `p`, `q`, `r` succeed in
sequence with plain-tuple values at the relevant fuel levels, both
`Then(Then(p, q), r)` and `Then(p, Then(q, r))` produce the same value —
the single flat concatenation — and the same end position. -/
theorem then_with_return_none_forms_a_monoid :
    (∀ fuel p text pos e space e2 b ex2,
      parse fuel p text pos e space = some (.ok (.success e2 b ex2)) →
      parse (fuel + 1) (.then_ (.returnP .none) p) text pos e space =
        some (.ok (.success e2 b ([(pos, .eUnsatisfiable)] ++ ex2)))) ∧
    (∀ fuel p text pos e space ex,
      parse fuel p text pos e space = some (.ok (.failure ex)) →
      parse (fuel + 1) (.then_ (.returnP .none) p) text pos e space =
        some (.ok (.failure ([(pos, .eUnsatisfiable)] ++ ex)))) ∧
    (∀ fuel p text pos e space e1 a ex1,
      parse fuel p text pos e space = some (.ok (.success e1 a ex1)) →
      parse (fuel + 1) (.then_ p (.returnP .none)) text pos e space =
        some (.ok (.success e1 a (ex1 ++ [(e1, .eUnsatisfiable)])))) ∧
    (∀ fuel p text pos e space ex,
      parse fuel p text pos e space = some (.ok (.failure ex)) →
      parse (fuel + 1) (.then_ p (.returnP .none)) text pos e space =
        some (.ok (.failure ex))) ∧
    (∀ fuel p q r text pos e space e1 e2 e3 xs ys zs ex1 ex2 ex3,
      parse fuel p text pos e space = some (.ok (.success e1 (.tuple xs) ex1)) →
      parse (fuel + 1) p text pos e space = some (.ok (.success e1 (.tuple xs) ex1)) →
      parse fuel q text e1 e space = some (.ok (.success e2 (.tuple ys) ex2)) →
      parse (fuel + 1) q text e1 e space = some (.ok (.success e2 (.tuple ys) ex2)) →
      parse fuel r text e2 e space = some (.ok (.success e3 (.tuple zs) ex3)) →
      parse (fuel + 1) r text e2 e space = some (.ok (.success e3 (.tuple zs) ex3)) →
      parse (fuel + 2) (.then_ (.then_ p q) r) text pos e space =
          some (.ok (.success e3 (.tuple (xs ++ ys ++ zs)) (ex1 ++ ex2 ++ ex3))) ∧
        parse (fuel + 2) (.then_ p (.then_ q r)) text pos e space =
          some (.ok (.success e3 (.tuple (xs ++ ys ++ zs)) (ex1 ++ ex2 ++ ex3)))) := by
  refine ⟨?_, ?_, ?_, ?_, ?_⟩
  · intro fuel p text pos e space e2 b ex2 h
    cases fuel with
    | zero => rw [parse_zero] at h; simp at h
    | succ f =>
      have hr := parse_returnP f Value.none text pos e space
      have := parse_then_succ_succ hr h
      rw [thenMerge_none_left] at this
      exact this
  · intro fuel p text pos e space ex h
    cases fuel with
    | zero => rw [parse_zero] at h; simp at h
    | succ f =>
      exact parse_then_succ_fail (parse_returnP f Value.none text pos e space) h
  · intro fuel p text pos e space e1 a ex1 h
    cases fuel with
    | zero => rw [parse_zero] at h; simp at h
    | succ f =>
      have hr := parse_returnP f Value.none text e1 e space
      have := parse_then_succ_succ h hr
      rw [thenMerge_none_right] at this
      exact this
  · intro fuel p text pos e space ex h
    exact parse_then_fail_first h
  · intro fuel p q r text pos e space e1 e2 e3 xs ys zs ex1 ex2 ex3
      hp hp' hq hq' hr hr'
    constructor
    · have h12 := parse_then_succ_succ hp hq
      rw [thenMerge_tuple_tuple] at h12
      have h123 := parse_then_succ_succ h12 hr'
      rw [thenMerge_tuple_tuple] at h123
      exact h123
    · have h23 := parse_then_succ_succ hq hr
      rw [thenMerge_tuple_tuple] at h23
      have h123 := parse_then_succ_succ hp' h23
      rw [thenMerge_tuple_tuple] at h123
      rw [List.append_assoc xs ys zs, List.append_assoc ex1 ex2 ex3]
      exact h123

/-- Witness for C9: the associativity clause at `CharIn` pairs over
`"abcdef"`; both association orders produce the single flat tuple of six
characters with the same end position. -/
theorem then_with_return_none_forms_a_monoid_witness :
    parse 6 (.then_ (.then_ (.then_ (.charIn ['a']) (.charIn ['b']))
          (.then_ (.charIn ['c']) (.charIn ['d'])))
        (.then_ (.charIn ['e']) (.charIn ['f'])))
        ['a', 'b', 'c', 'd', 'e', 'f'] 0 6 .invalid =
        some (.ok (.success 6
          (.tuple ([Value.char 'a', .char 'b'] ++ [Value.char 'c', .char 'd'] ++
            [Value.char 'e', .char 'f']))
          ([((1 : Nat), Expectation.eUnsatisfiable), (2, .eUnsatisfiable)] ++
            [((3 : Nat), Expectation.eUnsatisfiable), (4, .eUnsatisfiable)] ++
            [((5 : Nat), Expectation.eUnsatisfiable), (6, .eUnsatisfiable)]))) ∧
      parse 6 (.then_ (.then_ (.charIn ['a']) (.charIn ['b']))
          (.then_ (.then_ (.charIn ['c']) (.charIn ['d']))
            (.then_ (.charIn ['e']) (.charIn ['f']))))
        ['a', 'b', 'c', 'd', 'e', 'f'] 0 6 .invalid =
        some (.ok (.success 6
          (.tuple ([Value.char 'a', .char 'b'] ++ [Value.char 'c', .char 'd'] ++
            [Value.char 'e', .char 'f']))
          ([((1 : Nat), Expectation.eUnsatisfiable), (2, .eUnsatisfiable)] ++
            [((3 : Nat), Expectation.eUnsatisfiable), (4, .eUnsatisfiable)] ++
            [((5 : Nat), Expectation.eUnsatisfiable), (6, .eUnsatisfiable)]))) :=
  then_with_return_none_forms_a_monoid.2.2.2.2 4
    (.then_ (.charIn ['a']) (.charIn ['b']))
    (.then_ (.charIn ['c']) (.charIn ['d']))
    (.then_ (.charIn ['e']) (.charIn ['f']))
    ['a', 'b', 'c', 'd', 'e', 'f'] 0 6 .invalid 2 4 6
    [.char 'a', .char 'b'] [.char 'c', .char 'd'] [.char 'e', .char 'f']
    [(1, .eUnsatisfiable), (2, .eUnsatisfiable)]
    [(3, .eUnsatisfiable), (4, .eUnsatisfiable)]
    [(5, .eUnsatisfiable), (6, .eUnsatisfiable)]
    (by rfl) (by rfl) (by rfl) (by rfl) (by rfl) (by rfl)

theorem infixLoop_succ (parseF : Parser → List Char → Nat → Nat → Parser → POut Result)
    (f : Nat) (comp : Parser) (ops : List (Parser × (Value → Value → Value)))
    (text : List Char) (v : Value) (pos e : Nat) (space : Parser)
    (compEx : List (Nat × Expectation)) :
    infixLoop parseF (f + 1) comp ops text v pos e space compEx =
      bindE (tryOps parseF ops text pos e space) (fun
        | .inl opsEx => some (.ok (.success pos v (compEx ++ opsEx)))
        | .inr (opEnd, opFn, opEx) =>
          bindE (parseF comp text opEnd e space) (fun
            | .failure exC => some (.ok (.success pos v (exC ++ opEx)))
            | .success e2 v2 ex2 =>
              infixLoop parseF f comp ops text (opFn v v2) e2 e space ex2)) := rfl

theorem tryOps_first_match
    {parseF : Parser → List Char → Nat → Nat → Parser → POut Result}
    {text : List Char} {pos e : Nat} {space : Parser} :
    ∀ (ops1 : List (Parser × (Value → Value → Value)))
      (exs : List (Nat × Expectation)),
      AllFail parseF text pos e space (ops1.map Prod.fst) exs →
      ∀ (op : Parser) (fn : Value → Value → Value)
        (ops2 : List (Parser × (Value → Value → Value))) (e' : Nat) (v' : Value)
        (ex' : List (Nat × Expectation)),
        parseF op text pos e space = some (.ok (.success e' v' ex')) →
        tryOps parseF (ops1 ++ (op, fn) :: ops2) text pos e space =
          some (.ok (.inr (e', fn, ex'))) := by
  intro ops1
  induction ops1 with
  | nil =>
    intro exs _h op fn ops2 e' v' ex' hop
    simp [tryOps, hop, bindE]
  | cons o os ih =>
    intro exs hfail op fn ops2 e' v' ex' hop
    obtain ⟨p0, fn0⟩ := o
    simp only [List.map_cons] at hfail
    cases hfail with
    | cons hp0 hrest =>
      rw [List.cons_append]
      simp only [tryOps, hp0, bindE]
      rw [ih _ hrest op fn ops2 e' v' ex' hop]

theorem tryOps_all_fail
    {parseF : Parser → List Char → Nat → Nat → Parser → POut Result}
    {text : List Char} {pos e : Nat} {space : Parser} :
    ∀ (ops : List (Parser × (Value → Value → Value)))
      (exs : List (Nat × Expectation)),
      AllFail parseF text pos e space (ops.map Prod.fst) exs →
      tryOps parseF ops text pos e space = some (.ok (.inl exs)) := by
  intro ops
  induction ops with
  | nil =>
    intro exs hfail
    cases hfail
    rfl
  | cons o os ih =>
    intro exs hfail
    obtain ⟨p0, fn0⟩ := o
    simp only [List.map_cons] at hfail
    cases hfail with
    | cons hp0 hrest =>
      simp only [tryOps, hp0, bindE]
      rw [ih _ hrest]

/-- **C8.** `InfixExpr` parses one component, failing if it fails; then
repeatedly: the operator parsers are tried in the given order at the
current position and the first success is taken (its predecessors'
failures only accumulate as expectations); after a matched operator
another component is parsed and the running value is replaced by
`reduceFn(runningValue, componentValue)` — a strictly left-associative
reduction, as the concrete `1+2+3` run shows by producing a left-nested
value; the loop stops, succeeding with the last reduced value, when no
operator matches or when the component after a matched operator fails. -/
theorem infix_expr_reduces_left_associatively :
    (∀ fuel c ops text pos e space ex,
      parse fuel c text pos e space = some (.ok (.failure ex)) →
      parse (fuel + 1) (.infixExpr c ops) text pos e space =
        some (.ok (.failure ex))) ∧
    (∀ fuel c ops text pos e space e1 v ex1,
      parse fuel c text pos e space = some (.ok (.success e1 v ex1)) →
      parse (fuel + 1) (.infixExpr c ops) text pos e space =
        infixLoop (parse fuel) fuel c ops text v e1 e space ex1) ∧
    (∀ fuel f c ops text v pos e space compEx exs,
      AllFail (parse fuel) text pos e space (ops.map Prod.fst) exs →
      infixLoop (parse fuel) (f + 1) c ops text v pos e space compEx =
        some (.ok (.success pos v (compEx ++ exs)))) ∧
    (∀ fuel f c ops1 op fn ops2 text v pos e space compEx exs e' v' ex' exC,
      AllFail (parse fuel) text pos e space (ops1.map Prod.fst) exs →
      parse fuel op text pos e space = some (.ok (.success e' v' ex')) →
      parse fuel c text e' e space = some (.ok (.failure exC)) →
      infixLoop (parse fuel) (f + 1) c (ops1 ++ (op, fn) :: ops2) text v pos e
          space compEx =
        some (.ok (.success pos v (exC ++ ex')))) ∧
    (∀ fuel f c ops1 op fn ops2 text v pos e space compEx exs e' v' ex' e2 v2 ex2,
      AllFail (parse fuel) text pos e space (ops1.map Prod.fst) exs →
      parse fuel op text pos e space = some (.ok (.success e' v' ex')) →
      parse fuel c text e' e space = some (.ok (.success e2 v2 ex2)) →
      infixLoop (parse fuel) (f + 1) c (ops1 ++ (op, fn) :: ops2) text v pos e
          space compEx =
        infixLoop (parse fuel) f c (ops1 ++ (op, fn) :: ops2) text (fn v v2) e2 e
          space ex2) ∧
    parse 8 (.infixExpr (.charIn ['1', '2', '3'])
        [(.literal ['+'], fun a b => .tuple [a, b])])
        ['1', '+', '2', '+', '3'] 0 5 .invalid =
      some (.ok (.success 5 (.tuple [.tuple [.char '1', .char '2'], .char '3'])
        [(5, .eUnsatisfiable), (5, .eStringLiteral ['+'])])) := by
  refine ⟨?_, ?_, ?_, ?_, ?_, by rfl⟩
  · intro fuel c ops text pos e space ex h
    simp [parse, bindE, h]
  · intro fuel c ops text pos e space e1 v ex1 h
    simp [parse, bindE, h]
  · intro fuel f c ops text v pos e space compEx exs hfail
    rw [infixLoop_succ, tryOps_all_fail ops exs hfail]
    rfl
  · intro fuel f c ops1 op fn ops2 text v pos e space compEx exs e' v' ex' exC
      hfail hop hc
    rw [infixLoop_succ, tryOps_first_match ops1 exs hfail op fn ops2 e' v' ex' hop]
    simp only [bindE, hc]
  · intro fuel f c ops1 op fn ops2 text v pos e space compEx exs e' v' ex' e2 v2
      ex2 hfail hop hc
    rw [infixLoop_succ, tryOps_first_match ops1 exs hfail op fn ops2 e' v' ex' hop]
    simp only [bindE, hc]

/-- Witness for C8: a failing component makes the whole `InfixExpr` fail
with the component's expectations. -/
theorem infix_expr_reduces_left_associatively_witness :
    parse 4 (.infixExpr (.charIn ['9'])
        [(.literal ['+'], fun a b => .tuple [a, b])]) ['x'] 0 1 .invalid =
      some (.ok (.failure [(0, .eAnyCharIn ['9'])])) :=
  infix_expr_reduces_left_associatively.1 3 (.charIn ['9'])
    [(.literal ['+'], fun a b => .tuple [a, b])] ['x'] 0 1 .invalid
    [(0, .eAnyCharIn ['9'])] (by rfl)

theorem wsRegexEnd_stop {text : List Char} {pos e : Nat} (h : ¬pos < e) :
    wsRegexEnd text pos e = pos := by
  unfold wsRegexEnd
  have h0 : e - pos = 0 := by omega
  rw [h0]
  rfl

theorem wsRegexEnd_step {text : List Char} {pos e : Nat} {c : Char} (h : pos < e)
    (hc : text[pos]? = some c) (hw : c ∈ wsChars) :
    wsRegexEnd text pos e = wsRegexEnd text (pos + 1) e := by
  unfold wsRegexEnd
  obtain ⟨m, hm⟩ : ∃ m, e - pos = m + 1 := ⟨e - pos - 1, by omega⟩
  rw [hm]
  simp only [wsRegexEndAux, if_pos h, hc, if_pos hw]
  have hm2 : m = e - (pos + 1) := by omega
  rw [hm2]

theorem wsRegexEnd_nonws {text : List Char} {pos e : Nat} {c : Char} (h : pos < e)
    (hc : text[pos]? = some c) (hw : c ∉ wsChars) :
    wsRegexEnd text pos e = pos := by
  unfold wsRegexEnd
  obtain ⟨m, hm⟩ : ∃ m, e - pos = m + 1 := ⟨e - pos - 1, by omega⟩
  rw [hm]
  simp only [wsRegexEndAux, if_pos h, hc, if_neg hw]

theorem parse_charIn_invalid (k : Nat) (cs : List Char) (text : List Char)
    (pos e : Nat) :
    parse (k + 3) (.charIn cs) text pos e .invalid = charInAfterWs cs text pos e := rfl

theorem wsRegexEnd_characterisation :
    ∀ (n : Nat) (text : List Char) (pos e : Nat), e - pos ≤ n → pos ≤ e →
      e ≤ text.length →
      pos ≤ wsRegexEnd text pos e ∧ wsRegexEnd text pos e ≤ e ∧
      (∀ i, pos ≤ i → i < wsRegexEnd text pos e →
        ∃ c, text[i]? = some c ∧ c ∈ wsChars) ∧
      (wsRegexEnd text pos e < e →
        ∃ c, text[wsRegexEnd text pos e]? = some c ∧ c ∉ wsChars) := by
  intro n
  induction n with
  | zero =>
    intro text pos e hn hpe hel
    have hpos : ¬pos < e := by omega
    rw [wsRegexEnd_stop hpos]
    exact ⟨Nat.le_refl _, hpe, fun i h1 h2 => absurd h2 (by omega),
      fun hlt => absurd hlt hpos⟩
  | succ n ih =>
    intro text pos e hn hpe hel
    by_cases hpos : pos < e
    · obtain ⟨c, hc⟩ : ∃ c, text[pos]? = some c :=
        ⟨text[pos], List.getElem?_eq_getElem (by omega)⟩
      by_cases hw : c ∈ wsChars
      · rw [wsRegexEnd_step hpos hc hw]
        obtain ⟨h1, h2, h3, h4⟩ := ih text (pos + 1) e (by omega) (by omega) hel
        refine ⟨by omega, h2, ?_, h4⟩
        intro i hi1 hi2
        rcases Nat.eq_or_lt_of_le hi1 with h | h
        · exact ⟨c, h ▸ hc, hw⟩
        · exact h3 i (by omega) hi2
      · rw [wsRegexEnd_nonws hpos hc hw]
        exact ⟨Nat.le_refl _, by omega, fun i h1 h2 => absurd h2 (by omega),
          fun _ => ⟨c, hc, hw⟩⟩
    · rw [wsRegexEnd_stop hpos]
      exact ⟨Nat.le_refl _, hpe, fun i h1 h2 => absurd h2 (by omega),
        fun hlt => absurd hlt hpos⟩

/-- **C10.** The regex-based `consume` shortcut installed by
`Whitespace.__init__` computes, for any window `position ≤ end ≤ length`,
the index of the first character in `[position, end)` outside
`" \t\r\n"` (or `end` when there is none), and it agrees with the generic
`Parser.consume` loop it replaces — repeatedly applying
`CharIn(" \t\r\n")` with `Invalid` as the whitespace parser until the
first failure — whenever that loop is given enough fuel to terminate. -/
theorem whitespace_regex_consume_refines_generic_loop :
    (∀ text pos e f k, pos ≤ e → e ≤ text.length → e - pos < f →
      consumeAux (parse (k + 3)) f (.charIn wsChars) text pos e =
        some (.ok (wsRegexEnd text pos e))) ∧
    (∀ parseF loopFuel text pos e,
      consumeD parseF loopFuel .whitespaceP text pos e =
        some (.ok (wsRegexEnd text pos e))) ∧
    (∀ text pos e, pos ≤ e → e ≤ text.length →
      pos ≤ wsRegexEnd text pos e ∧ wsRegexEnd text pos e ≤ e ∧
      (∀ i, pos ≤ i → i < wsRegexEnd text pos e →
        ∃ c, text[i]? = some c ∧ c ∈ wsChars) ∧
      (wsRegexEnd text pos e < e →
        ∃ c, text[wsRegexEnd text pos e]? = some c ∧ c ∉ wsChars)) := by
  refine ⟨?_, fun parseF loopFuel text pos e => rfl,
    fun text pos e h1 h2 => wsRegexEnd_characterisation (e - pos) text pos e
      (Nat.le_refl _) h1 h2⟩
  intro text pos e f
  induction f generalizing pos with
  | zero => intro k h1 h2 h3; omega
  | succ f ih =>
    intro k h1 h2 h3
    simp only [consumeAux, parse_charIn_invalid]
    by_cases hpos : pos < e
    · obtain ⟨c, hc⟩ : ∃ c, text[pos]? = some c :=
        ⟨text[pos], List.getElem?_eq_getElem (by omega)⟩
      by_cases hw : c ∈ wsChars
      · rw [show charInAfterWs wsChars text pos e =
            some (.ok (.success (pos + 1) (.char c) [(pos + 1, .eUnsatisfiable)]))
          from by simp [charInAfterWs, if_pos hpos, hc, if_pos hw]]
        simp only [bindE]
        rw [ih (pos + 1) k (by omega) h2 (by omega), wsRegexEnd_step hpos hc hw]
      · rw [show charInAfterWs wsChars text pos e =
            some (.ok (.failure [(pos, .eAnyCharIn wsChars)]))
          from by simp [charInAfterWs, if_pos hpos, hc, if_neg hw]]
        simp only [bindE]
        rw [wsRegexEnd_nonws hpos hc hw]
    · rw [show charInAfterWs wsChars text pos e =
          some (.ok (.failure [(pos, .eAnyCharIn wsChars)]))
        from by simp [charInAfterWs, if_neg hpos]]
      simp only [bindE]
      rw [wsRegexEnd_stop hpos]

/-- Witness for C10: on `"  a"` with window `[0, 3)`, the generic consume
loop over `CharIn(" \t\r\n")` stops at index 2, the value of the regex
shortcut. -/
theorem whitespace_regex_consume_refines_generic_loop_witness :
    consumeAux (parse 3) 4 (.charIn wsChars) [' ', ' ', 'a'] 0 3 =
      some (.ok 2) :=
  whitespace_regex_consume_refines_generic_loop.1 [' ', ' ', 'a'] 0 3 4 0
    (by decide) (by decide) (by decide)

end Parcon
